import Mathlib

/-!
Verification of the web-watcher program (src/watcher.py).

The program is a single linear pipeline: fetch a page, flatten it to text,
slice the region between two marker literals, normalize whitespace, hash
the block, compare with the persisted digest, rewrite the persisted state
and emit outputs.

Shallow embedding conventions:
* Python strings are modelled as `List Char`.
* The two external libraries (`requests` for the fetch, `BeautifulSoup`
  for HTML flattening) are not part of the repository; the run model
  therefore takes the fetch outcome as a parameter and the extractor is
  modelled on the flattened text (`full_text` in the source), which is
  exactly the string all marker logic of `watcher.py` operates on.
* `hashlib.sha256(...).hexdigest()` is modelled by an executable SHA-256
  over the UTF-8 bytes, rendered as lowercase hex.
* The filesystem is the pair of state files; reads/writes/outputs/prints
  are recorded as an event trace.
-/

/-- Python whitespace: the characters for which `str.isspace()` holds and
which `str.strip()` removes. -/
def pyIsSpace (c : Char) : Bool :=
  let n := c.toNat
  (9 ≤ n && n ≤ 13) || (28 ≤ n && n ≤ 32) || n == 133 || n == 160 ||
    n == 5760 || (8192 ≤ n && n ≤ 8202) || n == 8232 || n == 8233 ||
    n == 8239 || n == 8287 || n == 12288

/-- Remove leading Python whitespace (`str.lstrip`). -/
def stripL (s : List Char) : List Char := s.dropWhile pyIsSpace

/-- Remove trailing Python whitespace (`str.rstrip`). -/
def stripR (s : List Char) : List Char := (s.reverse.dropWhile pyIsSpace).reverse

/-- Python `str.strip()`: drop whitespace from both ends. -/
def pyStrip (s : List Char) : List Char := stripL (stripR s)

/-- Right-to-left filter: keep a character depending on the already
processed suffix.  Both `re.sub` normalizations of `watcher.py` are
instances of this scheme. -/
def condFilter (keep : Char → List Char → Bool) : List Char → List Char
  | [] => []
  | c :: cs =>
    let acc := condFilter keep cs
    if keep c acc then c :: acc else acc

/-- `condFilter` run on top of an already processed suffix `z`. -/
def condFilterOn (keep : Char → List Char → Bool) : List Char → List Char → List Char
  | [], z => z
  | c :: cs, z =>
    let acc := condFilterOn keep cs z
    if keep c acc then c :: acc else acc

/-- Keep function realizing `re.sub(r"[ \t]+\n", "\n", s)`: a space or tab
is dropped exactly when (after dropping the spaces/tabs to its right) it
stands directly before a line break. -/
def keepTrailWS (c : Char) (acc : List Char) : Bool :=
  !((c == ' ' || c == '\t') && (acc.head? == some '\n'))

/-- Keep function realizing `re.sub(r"\n{3,}", "\n\n", s)`: a line break is
dropped exactly when two line breaks already follow it, so every maximal
run of three or more line breaks is collapsed to exactly two. -/
def keepNL (c : Char) (acc : List Char) : Bool :=
  !(c == '\n' && (acc.take 2 == ['\n', '\n']))

/-- `re.sub(r"[ \t]+\n", "\n", s)` (watcher.py line 51). -/
def subWsNl (s : List Char) : List Char := condFilter keepTrailWS s

/-- `re.sub(r"\n{3,}", "\n\n", s)` (watcher.py line 52). -/
def subNl3 (s : List Char) : List Char := condFilter keepNL s

/-- The normalization as performed by the source, lines 48-52:
`strip`, then the two `re.sub`s, then `strip` again. -/
def codeNormalize (s : List Char) : List Char :=
  pyStrip (subNl3 (subWsNl (pyStrip s)))

/-- The normalization as the specification words it: collapse trailing
horizontal whitespace before line breaks, collapse runs of 3+ line breaks
into exactly 2, trim the final result.  (No initial trim.) -/
def specNormalize (s : List Char) : List Char :=
  pyStrip (subNl3 (subWsNl s))

def START_MARKER : List Char := "Current social events".toList

def END_MARKER : List Char := "Past events".toList

/-- `pat` occurs in `s` beginning at index `i`. -/
def matchesAt (pat s : List Char) (i : Nat) : Bool :=
  pat.isPrefixOf (s.drop i)

/-- Python `s.find(pat)` / successful `s.index(pat)`: the least index at
which `pat` occurs in `s`, if any. -/
def findIdx (pat : List Char) : List Char → Option Nat
  | [] => if pat.isEmpty then some 0 else none
  | c :: cs =>
    if pat.isPrefixOf (c :: cs) then some 0
    else (findIdx pat cs).map (· + 1)

/-- Python `s.index(pat, start)`: least index `≥ start` at which `pat`
occurs. -/
def findFrom (pat s : List Char) (start : Nat) : Option Nat :=
  (findIdx pat (s.drop start)).map (· + start)

/-- Python slice `s[a:b]` for `a ≤ b` (as used in the source). -/
def pySlice (s : List Char) (a b : Nat) : List Char :=
  (s.drop a).take (b - a)

/-- The two ways extraction can fail in the source:
`markerNotFound` is the explicit `RuntimeError` of line 42 (either marker
absent from the flattened text); `endIndexNotFound` is the `ValueError`
raised by `full_text.index(END_MARKER, start)` on line 47 when the end
marker has no occurrence at or after `start`. -/
inductive ExtractError where
  | markerNotFound
  | endIndexNotFound
deriving DecidableEq

/-- `extract_current_social_events` (watcher.py lines 33-53), modelled on
the flattened text `full_text`:
check both markers occur; locate the first start-marker occurrence; locate
the first end-marker occurrence at or after its end; slice strictly
between them and normalize. -/
def extract_current_social_events (full_text : List Char) : Except ExtractError (List Char) :=
  match findIdx START_MARKER full_text, findIdx END_MARKER full_text with
  | some i, some _ =>
    let start := i + START_MARKER.length
    match findFrom END_MARKER full_text start with
    | none => .error ExtractError.endIndexNotFound
    | some e => .ok (codeNormalize (pySlice full_text start e))
  | _, _ => .error ExtractError.markerNotFound

/-- `true` when the output contains three consecutive line breaks
somewhere, i.e. a run of blank lines longer than one. -/
def hasTripleNL : List Char → Bool
  | c1 :: c2 :: c3 :: rest =>
    (c1 == '\n' && c2 == '\n' && c3 == '\n') || hasTripleNL (c2 :: c3 :: rest)
  | _ => false

/-! ## SHA-256 (model of `hashlib.sha256(...).hexdigest()`) -/

/-- Truncate to a 32-bit word. -/
def u32 (n : Nat) : Nat := n % 4294967296

/-- Right rotation of a 32-bit word. -/
def rotr32 (k x : Nat) : Nat := u32 ((x >>> k) ||| (x <<< (32 - k)))

def bsig0 (x : Nat) : Nat := (rotr32 2 x) ^^^ (rotr32 13 x) ^^^ (rotr32 22 x)

def bsig1 (x : Nat) : Nat := (rotr32 6 x) ^^^ (rotr32 11 x) ^^^ (rotr32 25 x)

def ssig0 (x : Nat) : Nat := (rotr32 7 x) ^^^ (rotr32 18 x) ^^^ (x >>> 3)

def ssig1 (x : Nat) : Nat := (rotr32 17 x) ^^^ (rotr32 19 x) ^^^ (x >>> 10)

def chF (x y z : Nat) : Nat := (x &&& y) ^^^ ((x ^^^ 4294967295) &&& z)

def majF (x y z : Nat) : Nat := (x &&& y) ^^^ (x &&& z) ^^^ (y &&& z)

/-- The 64 SHA-256 round constants. -/
def K256 : List Nat :=
  [1116352408, 1899447441, 3049323471, 3921009573, 961987163,
   1508970993, 2453635748, 2870763221, 3624381080, 310598401,
   607225278, 1426881987, 1925078388, 2162078206, 2614888103,
   3248222580, 3835390401, 4022224774, 264347078, 604807628,
   770255983, 1249150122, 1555081692, 1996064986, 2554220882,
   2821834349, 2952996808, 3210313671, 3336571891, 3584528711,
   113926993, 338241895, 666307205, 773529912, 1294757372,
   1396182291, 1695183700, 1986661051, 2177026350, 2456956037,
   2730485921, 2820302411, 3259730800, 3345764771, 3516065817,
   3600352804, 4094571909, 275423344, 430227734, 506948616,
   659060556, 883997877, 958139571, 1322822218, 1537002063,
   1747873779, 1955562222, 2024104815, 2227730452, 2361852424,
   2428436474, 2756734187, 3204031479, 3329325298]

/-- Working state: the eight 32-bit registers. -/
structure H8 where
  a : Nat
  b : Nat
  c : Nat
  d : Nat
  e : Nat
  f : Nat
  g : Nat
  hh : Nat
deriving DecidableEq

/-- Big-endian bytes (`k` of them) of `n`. -/
def beBytes : Nat → Nat → List Nat
  | 0, _ => []
  | k + 1, n => ((n >>> (8 * k)) &&& 255) :: beBytes k n

/-- Group bytes into big-endian 32-bit words. -/
def toWords : List Nat → List Nat
  | b0 :: b1 :: b2 :: b3 :: rest =>
    (((b0 * 256 + b1) * 256 + b2) * 256 + b3) :: toWords rest
  | _ => []

/-- Extend the 16 message words to 64; `acc` holds the words produced so
far, most recent first. -/
def msgSchedule : Nat → List Nat → List Nat
  | 0, acc => acc.reverse
  | n + 1, acc =>
    let v := u32 (ssig1 (acc.getD 1 0) + acc.getD 6 0 + ssig0 (acc.getD 14 0) + acc.getD 15 0)
    msgSchedule n (v :: acc)

def compressRound (st : H8) (k w : Nat) : H8 :=
  let t1 := u32 (st.hh + bsig1 st.e + chF st.e st.f st.g + k + w)
  let t2 := u32 (bsig0 st.a + majF st.a st.b st.c)
  ⟨u32 (t1 + t2), st.a, st.b, st.c, u32 (st.d + t1), st.e, st.f, st.g⟩

def foldRounds : List Nat → List Nat → H8 → H8
  | k :: ks, w :: ws, st => foldRounds ks ws (compressRound st k w)
  | _, _, st => st

def processChunk (st : H8) (chunk : List Nat) : H8 :=
  let w := msgSchedule 48 (toWords chunk).reverse
  let r := foldRounds K256 w st
  ⟨u32 (st.a + r.a), u32 (st.b + r.b), u32 (st.c + r.c), u32 (st.d + r.d),
   u32 (st.e + r.e), u32 (st.f + r.f), u32 (st.g + r.g), u32 (st.hh + r.hh)⟩

/-- SHA-256 padding: a 0x80 byte, zeros to 56 mod 64, then the bit length
as 8 big-endian bytes. -/
def padMessage (msg : List Nat) : List Nat :=
  let l := msg.length
  let k := (120 - ((l + 1) % 64)) % 64
  msg ++ [128] ++ List.replicate k 0 ++ beBytes 8 (8 * l)

def chunks64Fuel : Nat → List Nat → List (List Nat)
  | 0, _ => []
  | _, [] => []
  | fuel + 1, l => l.take 64 :: chunks64Fuel fuel (l.drop 64)

/-- Split a (padded) byte list into 64-byte chunks. -/
def chunks64 (l : List Nat) : List (List Nat) := chunks64Fuel l.length l

/-- UTF-8 encoding of one character (code point to bytes). -/
def utf8Bytes (c : Char) : List Nat :=
  let n := c.toNat
  if n < 128 then [n]
  else if n < 2048 then [192 ||| (n >>> 6), 128 ||| (n &&& 63)]
  else if n < 65536 then
    [224 ||| (n >>> 12), 128 ||| ((n >>> 6) &&& 63), 128 ||| (n &&& 63)]
  else
    [240 ||| (n >>> 18), 128 ||| ((n >>> 12) &&& 63),
     128 ||| ((n >>> 6) &&& 63), 128 ||| (n &&& 63)]

/-- UTF-8 encoding of a string (Python `s.encode("utf-8")`). -/
def utf8Encode (s : List Char) : List Nat := (s.map utf8Bytes).flatten

def hexDigit : Nat → Char
  | 0 => '0'
  | 1 => '1'
  | 2 => '2'
  | 3 => '3'
  | 4 => '4'
  | 5 => '5'
  | 6 => '6'
  | 7 => '7'
  | 8 => '8'
  | 9 => '9'
  | 10 => 'a'
  | 11 => 'b'
  | 12 => 'c'
  | 13 => 'd'
  | 14 => 'e'
  | _ => 'f'

/-- Lowercase hex rendering of a 32-bit word (8 digits). -/
def hexWord32 (w : Nat) : List Char :=
  [hexDigit ((w >>> 28) &&& 15), hexDigit ((w >>> 24) &&& 15), hexDigit ((w >>> 20) &&& 15),
   hexDigit ((w >>> 16) &&& 15), hexDigit ((w >>> 12) &&& 15), hexDigit ((w >>> 8) &&& 15),
   hexDigit ((w >>> 4) &&& 15), hexDigit (w &&& 15)]

/-- Digest state after processing all chunks of the padded message. -/
def sha256state (msg : List Nat) : H8 :=
  (chunks64 (padMessage msg)).foldl processChunk
    ⟨1779033703, 3144134277, 1013904242, 2773480762,
     1359893119, 2600822924, 528734635, 1541459225⟩

/-- SHA-256 of a byte list, rendered as 64 lowercase hex characters. -/
def sha256hexBytes (msg : List Nat) : List Char :=
  hexWord32 (sha256state msg).a ++ hexWord32 (sha256state msg).b ++
    hexWord32 (sha256state msg).c ++ hexWord32 (sha256state msg).d ++
    hexWord32 (sha256state msg).e ++ hexWord32 (sha256state msg).f ++
    hexWord32 (sha256state msg).g ++ hexWord32 (sha256state msg).hh

/-- `sha256` (watcher.py lines 56-57): lowercase hex SHA-256 digest of the
UTF-8 encoding of `s`. -/
def sha256 (s : List Char) : List Char := sha256hexBytes (utf8Encode s)

/-! ## Run model (`main` and the `__main__` wrapper, watcher.py lines 60-110) -/

/-- The two persisted state files under `.state/`:
`hash` is `current_social_events.sha256`, `text` is
`current_social_events.txt`. -/
inductive FileId where
  | hash
  | text
deriving DecidableEq

/-- The state directory: each file either absent (`none`) or holding a
string. -/
structure FS where
  hashFile : Option (List Char)
  textFile : Option (List Char)
deriving DecidableEq

/-- Observable actions of one run, in program order: state-file reads and
writes, the three GitHub-output emissions, and lines printed to standard
output.  (`set_github_output` appends to the file named by the
`GITHUB_OUTPUT` environment variable and is a silent no-op when that is
unset; the event records the emission call with its key and value.) -/
inductive Event where
  | readFile (f : FileId)
  | writeFile (f : FileId) (content : List Char)
  | ghOutput (key value : List Char)
  | printLine (s : List Char)
deriving DecidableEq

/-- Failure of `fetch_html` (watcher.py lines 23-30): a `requests`
exception or `raise_for_status`, carrying its message.  The network is
external, so the run model takes the fetch outcome as a parameter. -/
inductive FetchErr where
  | fetchFailed (msg : List Char)
deriving DecidableEq

def fetchErrMsg : FetchErr → List Char
  | .fetchFailed m => m

/-- `str(e)` for the two extraction exceptions: the `RuntimeError` message
of line 42 (modelled without its quote characters) and the standard
`ValueError` message of `str.index`. -/
def extractErrMsg : ExtractError → List Char
  | .markerNotFound =>
    "Could not find markers. Needed Current social events and Past events.".toList
  | .endIndexNotFound => "substring not found".toList

/-- The fixed target URL (watcher.py line 12). -/
def URL : List Char :=
  "https://uni-freiburg.de/en/studies/during-your-studies/apis/".toList

/-- `read_text` (watcher.py lines 60-61): `None` when the file is absent,
otherwise the stripped file content. -/
def read_text (fileContent : Option (List Char)) : Option (List Char) :=
  fileContent.map pyStrip

/-- `write_text` (watcher.py lines 64-65): overwrite the file entirely. -/
def write_text (fs : FS) (f : FileId) (content : List Char) : FS :=
  match f with
  | .hash => { fs with hashFile := some content }
  | .text => { fs with textFile := some content }

/-- `main` (watcher.py lines 79-101).  On success it returns the final
state directory, the event trace and the `changed` flag (the return value
of `main` is 0 on both branches); a raised exception is returned as
`.error` with its message, before any write has happened. -/
def mainResult (fetched : Except FetchErr (List Char)) (fs0 : FS) :
    Except (List Char) (FS × List Event × Bool) :=
  match fetched with
  | .error e => .error (fetchErrMsg e)
  | .ok full_text =>
    match extract_current_social_events full_text with
    | .error e => .error (extractErrMsg e)
    | .ok block =>
      let h := sha256 block
      let prev := read_text fs0.hashFile
      let changed := !(prev == some h)
      let fs1 := write_text (write_text fs0 FileId.hash h) FileId.text block
      let evs := [Event.readFile FileId.hash,
                  Event.writeFile FileId.hash h,
                  Event.writeFile FileId.text block,
                  Event.ghOutput "changed".toList
                    (if changed then "true".toList else "false".toList),
                  Event.ghOutput "url".toList URL,
                  Event.ghOutput "content".toList block,
                  Event.printLine
                    (if changed then "CHANGED: Current social events updated.".toList
                     else "No change.".toList)]
      .ok (fs1, evs, changed)

/-- Result of one whole process invocation. -/
structure RunOut where
  exitCode : Nat
  fs : FS
  events : List Event
  changedFlag : Option Bool
deriving DecidableEq

/-- The `__main__` wrapper (watcher.py lines 104-110): `sys.exit(main())`,
and on any exception print `ERROR: {e}` and exit 1. -/
def program (fetched : Except FetchErr (List Char)) (fs0 : FS) : RunOut :=
  match mainResult fetched fs0 with
  | .ok (fs1, evs, changed) => ⟨0, fs1, evs, some changed⟩
  | .error msg => ⟨1, fs0, [Event.printLine ("ERROR: ".toList ++ msg)], none⟩

/-- The run reaches the write stage: the fetch succeeded and extraction
succeeded.  (File writes are modelled as total.) -/
def runSucceeds (fetched : Except FetchErr (List Char)) : Bool :=
  match fetched with
  | .error _ => false
  | .ok t =>
    match extract_current_social_events t with
    | .ok _ => true
    | .error _ => false

/-! ## Lemmas: substring search -/

theorem matchesAt_zero (pat s : List Char) : matchesAt pat s 0 = pat.isPrefixOf s := rfl

theorem matchesAt_cons_succ (pat : List Char) (c : Char) (cs : List Char) (k : Nat) :
    matchesAt pat (c :: cs) (k + 1) = matchesAt pat cs k := rfl

theorem matchesAt_nil (pat : List Char) (k : Nat) :
    matchesAt pat [] k = pat.isEmpty := by
  unfold matchesAt
  rw [List.drop_nil]
  cases pat <;> rfl

theorem matchesAt_drop (pat s : List Char) (a k : Nat) :
    matchesAt pat (s.drop a) k = matchesAt pat s (a + k) := by
  unfold matchesAt
  rw [List.drop_drop]

/-- `findIdx` returns exactly the first occurrence. -/
theorem findIdx_eq_some_iff (pat : List Char) (s : List Char) (i : Nat) :
    findIdx pat s = some i ↔
      (matchesAt pat s i = true ∧ ∀ k, k < i → matchesAt pat s k = false) := by
  induction s generalizing i with
  | nil =>
    show (if pat.isEmpty then some 0 else none) = some i ↔ _
    by_cases hp : pat.isEmpty
    · rw [if_pos hp]
      constructor
      · intro h
        have hi : i = 0 := by injection h with h; omega
        subst hi
        exact ⟨by rw [matchesAt_nil]; exact hp, fun k hk => absurd hk (Nat.not_lt_zero k)⟩
      · rintro ⟨-, hmin⟩
        rcases Nat.eq_zero_or_pos i with rfl | hi
        · rfl
        · have := hmin 0 hi
          rw [matchesAt_nil, hp] at this
          exact absurd this (by simp)
    · rw [if_neg hp]
      constructor
      · intro h; exact absurd h (by simp)
      · rintro ⟨hm, -⟩
        rw [matchesAt_nil] at hm
        exact absurd hm (by simpa using hp)
  | cons c cs ih =>
    show (if pat.isPrefixOf (c :: cs) then some 0 else (findIdx pat cs).map (· + 1)) = some i ↔ _
    by_cases hp : pat.isPrefixOf (c :: cs)
    · rw [if_pos hp]
      constructor
      · intro h
        have hi : i = 0 := by injection h with h; omega
        subst hi
        exact ⟨hp, fun k hk => absurd hk (Nat.not_lt_zero k)⟩
      · rintro ⟨-, hmin⟩
        rcases Nat.eq_zero_or_pos i with rfl | hi
        · rfl
        · have := hmin 0 hi
          rw [matchesAt_zero, hp] at this
          exact absurd this (by simp)
    · rw [if_neg hp]
      constructor
      · intro h
        rcases Option.map_eq_some'.mp h with ⟨i0, hfind, hi⟩
        subst hi
        rcases (ih i0).mp hfind with ⟨hm, hmin⟩
        refine ⟨by rwa [matchesAt_cons_succ], ?_⟩
        intro k hk
        rcases k with _ | k
        · rw [matchesAt_zero]
          exact Bool.eq_false_iff.mpr hp
        · rw [matchesAt_cons_succ]
          exact hmin k (by omega)
      · rintro ⟨hm, hmin⟩
        rcases i with _ | i0
        · rw [matchesAt_zero] at hm
          exact absurd hm hp
        · rw [matchesAt_cons_succ] at hm
          have : findIdx pat cs = some i0 := (ih i0).mpr
            ⟨hm, fun k hk => by
              have := hmin (k + 1) (by omega)
              rwa [matchesAt_cons_succ] at this⟩
        
          rw [this]
          rfl

/-- `findIdx` is `none` exactly when there is no occurrence at all. -/
theorem findIdx_eq_none_iff (pat : List Char) (s : List Char) :
    findIdx pat s = none ↔ ∀ k, matchesAt pat s k = false := by
  induction s with
  | nil =>
    show (if pat.isEmpty then some 0 else none) = none ↔ _
    by_cases hp : pat.isEmpty
    · rw [if_pos hp]
      simp only [reduceCtorEq, false_iff, not_forall]
      exact ⟨0, by rw [matchesAt_nil, hp]; simp⟩
    · rw [if_neg hp]
      simp only [true_iff]
      intro k
      rw [matchesAt_nil]
      exact Bool.eq_false_iff.mpr (by simpa using hp)
  | cons c cs ih =>
    show (if pat.isPrefixOf (c :: cs) then some 0 else (findIdx pat cs).map (· + 1)) = none ↔ _
    by_cases hp : pat.isPrefixOf (c :: cs)
    · rw [if_pos hp]
      simp only [reduceCtorEq, false_iff, not_forall]
      exact ⟨0, by rw [matchesAt_zero, hp]; simp⟩
    · rw [if_neg hp]
      rw [Option.map_eq_none', ih]
      constructor
      · intro h k
        rcases k with _ | k
        · rw [matchesAt_zero]
          exact Bool.eq_false_iff.mpr hp
        · rw [matchesAt_cons_succ]
          exact h k
      · intro h k
        have := h (k + 1)
        rwa [matchesAt_cons_succ] at this

theorem findFrom_eq_some_iff (pat s : List Char) (a j : Nat) :
    findFrom pat s a = some j ↔
      (a ≤ j ∧ matchesAt pat s j = true ∧
        ∀ k, k < j → a ≤ k → matchesAt pat s k = false) := by
  unfold findFrom
  constructor
  · intro h
    rcases Option.map_eq_some'.mp h with ⟨j0, hfind, hj⟩
    subst hj
    rcases (findIdx_eq_some_iff pat (s.drop a) j0).mp hfind with ⟨hm, hmin⟩
    rw [matchesAt_drop] at hm
    refine ⟨by omega, by rwa [Nat.add_comm], ?_⟩
    intro k hk hak
    have := hmin (k - a) (by omega)
    rw [matchesAt_drop] at this
    rwa [show a + (k - a) = k by omega] at this
  · rintro ⟨haj, hm, hmin⟩
    have : findIdx pat (s.drop a) = some (j - a) := by
      rw [findIdx_eq_some_iff]
      refine ⟨by rw [matchesAt_drop, show a + (j - a) = j by omega]; exact hm, ?_⟩
      intro k hk
      rw [matchesAt_drop]
      exact hmin (a + k) (by omega) (by omega)
    rw [this]
    show some (j - a + a) = some j
    rw [show j - a + a = j by omega]

theorem findFrom_eq_none_iff (pat s : List Char) (a : Nat) :
    findFrom pat s a = none ↔ ∀ k, a ≤ k → matchesAt pat s k = false := by
  unfold findFrom
  rw [Option.map_eq_none', findIdx_eq_none_iff]
  constructor
  · intro h k hak
    have := h (k - a)
    rw [matchesAt_drop, show a + (k - a) = k by omega] at this
    exact this
  · intro h k
    rw [matchesAt_drop]
    exact h (a + k) (by omega)

/-! ## Lemmas: stripping -/

theorem dropWhile_append_of_all (p : Char → Bool) (u v : List Char)
    (h : ∀ c ∈ u, p c = true) : (u ++ v).dropWhile p = v.dropWhile p := by
  induction u with
  | nil => rfl
  | cons c cs ih =>
    rw [List.cons_append, List.dropWhile_cons, if_pos (h c (List.mem_cons_self _ _))]
    exact ih fun d hd => h d (List.mem_cons_of_mem c hd)

theorem dropWhile_all_nil (p : Char → Bool) (u : List Char)
    (h : ∀ c ∈ u, p c = true) : u.dropWhile p = [] := by
  have := dropWhile_append_of_all p u [] h
  simpa using this

theorem dropWhile_append_split (p : Char → Bool) (u v : List Char) :
    (u ++ v).dropWhile p =
      if u.dropWhile p = [] then v.dropWhile p else u.dropWhile p ++ v := by
  induction u with
  | nil => simp
  | cons c cs ih =>
    rw [List.cons_append, List.dropWhile_cons, List.dropWhile_cons]
    by_cases hc : p c
    · rw [if_pos hc, if_pos hc, ih]
    · rw [if_neg hc, if_neg hc, if_neg (by simp), List.cons_append]

theorem stripL_append_of_all (w y : List Char)
    (h : ∀ c ∈ w, pyIsSpace c = true) : stripL (w ++ y) = stripL y :=
  dropWhile_append_of_all pyIsSpace w y h

theorem stripR_append_of_all (a w : List Char)
    (h : ∀ c ∈ w, pyIsSpace c = true) : stripR (a ++ w) = stripR a := by
  unfold stripR
  rw [List.reverse_append, dropWhile_append_of_all pyIsSpace w.reverse a.reverse
    fun c hc => h c (List.mem_reverse.mp hc)]

theorem stripR_append_split (a b : List Char) :
    stripR (a ++ b) = if stripR b = [] then stripR a else a ++ stripR b := by
  unfold stripR
  rw [List.reverse_append, dropWhile_append_split]
  by_cases hb : b.reverse.dropWhile pyIsSpace = []
  · rw [if_pos hb, if_pos (by rw [hb]; rfl)]
  · rw [if_neg hb, if_neg (by simpa using hb), List.reverse_append, List.reverse_reverse]

/-- Splitting off the trailing whitespace of `x`. -/
theorem stripR_decomposition (x : List Char) :
    x = stripR x ++ (x.reverse.takeWhile pyIsSpace).reverse := by
  unfold stripR
  rw [← List.reverse_append, List.takeWhile_append_dropWhile, List.reverse_reverse]

theorem head?_dropWhile_not (p : Char → Bool) (l : List Char) (d : Char)
    (h : (l.dropWhile p).head? = some d) : p d = false := by
  induction l with
  | nil => exact absurd h (by simp)
  | cons c cs ih =>
    rw [List.dropWhile_cons] at h
    by_cases hc : p c
    · rw [if_pos hc] at h
      exact ih h
    · rw [if_neg hc] at h
      injection h with h
      subst h
      exact Bool.eq_false_iff.mpr hc

/-- The last character surviving `stripR` is not whitespace. -/
theorem stripR_getLast? (x : List Char) (d : Char)
    (h : (stripR x).getLast? = some d) : pyIsSpace d = false := by
  unfold stripR at h
  rw [List.getLast?_reverse] at h
  exact head?_dropWhile_not pyIsSpace x.reverse d h

theorem stripR_all_space (w : List Char) (h : ∀ c ∈ w, pyIsSpace c = true) :
    stripR w = [] := by
  unfold stripR
  rw [dropWhile_all_nil pyIsSpace w.reverse fun c hc => h c (List.mem_reverse.mp hc)]
  rfl

/-! ## Lemmas: the two `re.sub` filters -/

theorem condFilter_append (keep : Char → List Char → Bool) (a b : List Char) :
    condFilter keep (a ++ b) = condFilterOn keep a (condFilter keep b) := by
  induction a with
  | nil => rfl
  | cons c cs ih =>
    show (let acc := condFilter keep (cs ++ b);
          if keep c acc then c :: acc else acc) = _
    rw [ih]
    rfl

theorem condFilterOn_shape (keep : Char → List Char → Bool) (a z : List Char) :
    ∃ w, (∀ c ∈ w, c ∈ a) ∧ condFilterOn keep a z = w ++ z := by
  induction a with
  | nil => exact ⟨[], by simp, rfl⟩
  | cons c cs ih =>
    rcases ih with ⟨w, hw, heq⟩
    by_cases hk : keep c (condFilterOn keep cs z)
    · refine ⟨c :: w, ?_, ?_⟩
      · intro d hd
        rcases List.mem_cons.mp hd with rfl | hd
        · exact List.mem_cons_self _ _
        · exact List.mem_cons_of_mem c (hw d hd)
      · show (if keep c (condFilterOn keep cs z) then c :: condFilterOn keep cs z
              else condFilterOn keep cs z) = (c :: w) ++ z
        rw [if_pos hk, heq]
        rfl
    · refine ⟨w, fun d hd => List.mem_cons_of_mem c (hw d hd), ?_⟩
      show (if keep c (condFilterOn keep cs z) then c :: condFilterOn keep cs z
            else condFilterOn keep cs z) = w ++ z
      rw [if_neg hk, heq]

theorem condFilter_mem (keep : Char → List Char → Bool) (s : List Char) :
    ∀ c ∈ condFilter keep s, c ∈ s := by
  induction s with
  | nil => simp [condFilter]
  | cons c cs ih =>
    intro d hd
    show _ ∈ c :: cs
    by_cases hk : keep c (condFilter keep cs)
    · rw [show condFilter keep (c :: cs) =
          (if keep c (condFilter keep cs) then c :: condFilter keep cs
           else condFilter keep cs) from rfl, if_pos hk] at hd
      rcases List.mem_cons.mp hd with rfl | hd
      · exact List.mem_cons_self _ _
      · exact List.mem_cons_of_mem c (ih d hd)
    · rw [show condFilter keep (c :: cs) =
          (if keep c (condFilter keep cs) then c :: condFilter keep cs
           else condFilter keep cs) from rfl, if_neg hk] at hd
      exact List.mem_cons_of_mem c (ih d hd)

theorem condFilter_ne_nil (keep : Char → List Char → Bool)
    (h0 : ∀ c, keep c [] = true) (s : List Char) (hs : s ≠ []) :
    condFilter keep s ≠ [] := by
  induction s with
  | nil => exact absurd rfl hs
  | cons c cs ih =>
    show (if keep c (condFilter keep cs) then c :: condFilter keep cs
          else condFilter keep cs) ≠ []
    rcases cs with _ | ⟨d, ds⟩
    · show (if keep c (condFilter keep []) then [c] else condFilter keep []) ≠ []
      rw [show condFilter keep ([] : List Char) = [] from rfl, h0 c]
      simp
    · have hne := ih (by simp)
      by_cases hk : keep c (condFilter keep (d :: ds))
      · rw [if_pos hk]
        simp
      · rw [if_neg hk]
        exact hne

theorem condFilter_getLast? (keep : Char → List Char → Bool)
    (h0 : ∀ c, keep c [] = true) (s : List Char) :
    (condFilter keep s).getLast? = s.getLast? := by
  induction s with
  | nil => rfl
  | cons c cs ih =>
    show (if keep c (condFilter keep cs) then c :: condFilter keep cs
          else condFilter keep cs).getLast? = (c :: cs).getLast?
    rcases cs with _ | ⟨d, ds⟩
    · rw [show condFilter keep ([] : List Char) = [] from rfl, h0 c]
      rfl
    · have hne := condFilter_ne_nil keep h0 (d :: ds) (by simp)
      rcases hx : condFilter keep (d :: ds) with _ | ⟨x, xs⟩
      · exact absurd hx hne
      · have ih2 : (x :: xs).getLast? = (d :: ds).getLast? := hx ▸ ih
        by_cases hk : keep c (x :: xs)
        · rw [if_pos hk, List.getLast?_cons_cons, ih2, List.getLast?_cons_cons]
        · rw [if_neg hk, ih2, List.getLast?_cons_cons]

theorem keepTrailWS_nil (c : Char) : keepTrailWS c [] = true := by
  simp [keepTrailWS]

theorem keepNL_nil (c : Char) : keepNL c [] = true := by
  simp [keepNL]

/-- When `a` does not end in a space or tab, running the first `re.sub`
filter on top of `z` appends its ordinary result in front of `z`. -/
theorem condFilterOn_keepTrailWS_eq (a z : List Char) :
    (∀ d, a.getLast? = some d → (d == ' ' || d == '\t') = false) →
    condFilterOn keepTrailWS a z = subWsNl a ++ z := by
  induction a with
  | nil => intro _; rfl
  | cons c cs ih =>
    intro h
    rcases cs with _ | ⟨d, ds⟩
    · have hc := h c rfl
      show (if keepTrailWS c z then c :: z else z) = subWsNl [c] ++ z
      rw [if_pos (show keepTrailWS c z = true by simp [keepTrailWS, hc])]
      rw [show subWsNl [c] = [c] from by
        show (if keepTrailWS c (condFilter keepTrailWS []) then [c] else condFilter keepTrailWS []) = [c]
        rw [show condFilter keepTrailWS ([] : List Char) = [] from rfl, keepTrailWS_nil]
        rfl]
      rfl
    · have hlast : ∀ d0, (d :: ds).getLast? = some d0 → (d0 == ' ' || d0 == '\t') = false :=
        fun d0 hd0 => h d0 (by rw [List.getLast?_cons_cons]; exact hd0)
      have ihh := ih hlast
      show (if keepTrailWS c (condFilterOn keepTrailWS (d :: ds) z)
            then c :: condFilterOn keepTrailWS (d :: ds) z
            else condFilterOn keepTrailWS (d :: ds) z) = subWsNl (c :: d :: ds) ++ z
      rw [ihh]
      have hne := condFilter_ne_nil keepTrailWS keepTrailWS_nil (d :: ds) (by simp)
      rcases hx : subWsNl (d :: ds) with _ | ⟨x, xs⟩
      · exact absurd hx hne
      · have hkeq : keepTrailWS c ((x :: xs) ++ z) = keepTrailWS c (x :: xs) := by
          simp [keepTrailWS]
        rw [show subWsNl (c :: d :: ds) =
            (if keepTrailWS c (subWsNl (d :: ds)) then c :: subWsNl (d :: ds)
             else subWsNl (d :: ds)) from rfl, hx, hkeq]
        by_cases hk : keepTrailWS c (x :: xs)
        · rw [if_pos hk, if_pos hk]
          rfl
        · rw [if_neg hk, if_neg hk]

/-- When `a` does not end in a line break, running the second `re.sub`
filter on top of `z` appends its ordinary result in front of `z`. -/
theorem condFilterOn_keepNL_eq (a z : List Char) :
    (∀ d, a.getLast? = some d → (d == '\n') = false) →
    condFilterOn keepNL a z = subNl3 a ++ z := by
  induction a with
  | nil => intro _; rfl
  | cons c cs ih =>
    intro h
    rcases cs with _ | ⟨d, ds⟩
    · have hc := h c rfl
      show (if keepNL c z then c :: z else z) = subNl3 [c] ++ z
      rw [if_pos (show keepNL c z = true by simp [keepNL, hc])]
      rw [show subNl3 [c] = [c] from by
        show (if keepNL c (condFilter keepNL []) then [c] else condFilter keepNL []) = [c]
        rw [show condFilter keepNL ([] : List Char) = [] from rfl, keepNL_nil]
        rfl]
      rfl
    · have hlast : ∀ d0, (d :: ds).getLast? = some d0 → (d0 == '\n') = false :=
        fun d0 hd0 => h d0 (by rw [List.getLast?_cons_cons]; exact hd0)
      have ihh := ih hlast
      show (if keepNL c (condFilterOn keepNL (d :: ds) z)
            then c :: condFilterOn keepNL (d :: ds) z
            else condFilterOn keepNL (d :: ds) z) = subNl3 (c :: d :: ds) ++ z
      rw [ihh]
      have hne := condFilter_ne_nil keepNL keepNL_nil (d :: ds) (by simp)
      rcases hx : subNl3 (d :: ds) with _ | ⟨x, xs⟩
      · exact absurd hx hne
      · have hkeq : keepNL c ((x :: xs) ++ z) = keepNL c (x :: xs) := by
          rcases xs with _ | ⟨y, ys⟩
          · have hxl : (x == '\n') = false := by
              have hgl : ([x] : List Char).getLast? = (d :: ds).getLast? := by
                rw [← hx]
                exact condFilter_getLast? keepNL keepNL_nil (d :: ds)
              exact hlast x (by rw [← hgl]; rfl)
            simp [keepNL, hxl]
          · rfl
        rw [show subNl3 (c :: d :: ds) =
            (if keepNL c (subNl3 (d :: ds)) then c :: subNl3 (d :: ds)
             else subNl3 (d :: ds)) from rfl, hx, hkeq]
        by_cases hk : keepNL c (x :: xs)
        · rw [if_pos hk, if_pos hk]
          rfl
        · rw [if_neg hk, if_neg hk]

theorem pyIsSpace_of_ht (d : Char) (h : (d == ' ' || d == '\t') = true) :
    pyIsSpace d = true := by
  rcases Bool.or_eq_true_iff.mp h with h | h
  · rw [show d = ' ' from beq_iff_eq.mp h]
    decide
  · rw [show d = '\t' from beq_iff_eq.mp h]
    decide

theorem pyIsSpace_of_nl (d : Char) (h : (d == '\n') = true) : pyIsSpace d = true := by
  rw [show d = '\n' from beq_iff_eq.mp h]
  decide

/-- Whitespace prepended to the input does not change the normalized
result. -/
theorem specNormalize_space_prepend (w y : List Char)
    (hw : ∀ c ∈ w, pyIsSpace c = true) :
    specNormalize (w ++ y) = specNormalize y := by
  unfold specNormalize pyStrip
  rw [show subWsNl (w ++ y) = condFilterOn keepTrailWS w (subWsNl y) from
    condFilter_append keepTrailWS w y]
  rcases condFilterOn_shape keepTrailWS w (subWsNl y) with ⟨w1, hw1, he1⟩
  rw [he1]
  rw [show subNl3 (w1 ++ subWsNl y) = condFilterOn keepNL w1 (subNl3 (subWsNl y)) from
    condFilter_append keepNL w1 (subWsNl y)]
  rcases condFilterOn_shape keepNL w1 (subNl3 (subWsNl y)) with ⟨w2, hw2, he2⟩
  rw [he2]
  have hw2sp : ∀ c ∈ w2, pyIsSpace c = true := fun c hc => hw c (hw1 c (hw2 c hc))
  rw [stripR_append_split]
  by_cases hz : stripR (subNl3 (subWsNl y)) = []
  · rw [if_pos hz, hz, stripR_all_space w2 hw2sp]
  · rw [if_neg hz, stripL_append_of_all w2 _ hw2sp]

/-- Whitespace appended to an input that does not end in whitespace does
not change the normalized result. -/
theorem specNormalize_space_append (y w : List Char)
    (hw : ∀ c ∈ w, pyIsSpace c = true)
    (hy : ∀ d, y.getLast? = some d → pyIsSpace d = false) :
    specNormalize (y ++ w) = specNormalize y := by
  unfold specNormalize pyStrip
  rw [show subWsNl (y ++ w) = condFilterOn keepTrailWS y (subWsNl w) from
    condFilter_append keepTrailWS y w]
  rw [condFilterOn_keepTrailWS_eq y (subWsNl w) (fun d hd => by
    rcases hht : (d == ' ' || d == '\t') with _ | _
    · rfl
    · exact absurd (pyIsSpace_of_ht d hht) (by rw [hy d hd]; simp))]
  rw [show subNl3 (subWsNl y ++ subWsNl w) =
      condFilterOn keepNL (subWsNl y) (subNl3 (subWsNl w)) from
    condFilter_append keepNL (subWsNl y) (subWsNl w)]
  rw [condFilterOn_keepNL_eq (subWsNl y) (subNl3 (subWsNl w)) (fun d hd => by
    rw [show (subWsNl y).getLast? = y.getLast? from
      condFilter_getLast? keepTrailWS keepTrailWS_nil y] at hd
    rcases hnl : (d == '\n') with _ | _
    · rfl
    · exact absurd (pyIsSpace_of_nl d hnl) (by rw [hy d hd]; simp))]
  have hsp : ∀ c ∈ subNl3 (subWsNl w), pyIsSpace c = true := fun c hc =>
    hw c (condFilter_mem keepTrailWS w c (condFilter_mem keepNL (subWsNl w) c hc))
  rw [stripR_append_of_all _ _ hsp]

theorem mem_takeWhile_sat (p : Char → Bool) (l : List Char) :
    ∀ c ∈ l.takeWhile p, p c = true := by
  induction l with
  | nil => simp
  | cons a as ih =>
    intro c hc
    rw [List.takeWhile_cons] at hc
    by_cases ha : p a
    · rw [if_pos ha] at hc
      rcases List.mem_cons.mp hc with rfl | hc
      · exact ha
      · exact ih c hc
    · rw [if_neg ha] at hc
      exact absurd hc (List.not_mem_nil c)

/-- The redundant initial `strip` of the source: normalizing a stripped
input gives the same result as normalizing the raw input. -/
theorem specNormalize_pyStrip (x : List Char) :
    specNormalize (pyStrip x) = specNormalize x := by
  have h1 : specNormalize x = specNormalize (stripR x) := by
    conv_lhs => rw [stripR_decomposition x]
    exact specNormalize_space_append (stripR x) (x.reverse.takeWhile pyIsSpace).reverse
      (fun c hc => mem_takeWhile_sat pyIsSpace x.reverse c (List.mem_reverse.mp hc))
      (stripR_getLast? x)
  have h2 : specNormalize (stripR x) = specNormalize (stripL (stripR x)) := by
    conv_lhs => rw [← List.takeWhile_append_dropWhile (p := pyIsSpace) (l := stripR x)]
    exact specNormalize_space_prepend ((stripR x).takeWhile pyIsSpace) (stripL (stripR x))
      (mem_takeWhile_sat pyIsSpace (stripR x))
  rw [h1, h2]
  rfl

/-- The normalization performed by the code equals the normalization as
the specification words it (the extra initial `strip` is redundant). -/
theorem codeNormalize_eq_specNormalize (x : List Char) :
    codeNormalize x = specNormalize x :=
  specNormalize_pyStrip x

/-! ## Lemmas: no run of blank lines longer than one -/

theorem hasTripleNL_tail (c : Char) (cs : List Char)
    (h : hasTripleNL cs = true) : hasTripleNL (c :: cs) = true := by
  rcases cs with _ | ⟨d, ds⟩
  · exact absurd h (by simp [hasTripleNL])
  · rcases ds with _ | ⟨e, es⟩
    · exact absurd h (by simp [hasTripleNL])
    · rw [show hasTripleNL (c :: d :: e :: es) =
          ((c == '\n' && d == '\n' && e == '\n') || hasTripleNL (d :: e :: es)) from rfl,
        h, Bool.or_true]

theorem hasTripleNL_append_right (a b : List Char)
    (h : hasTripleNL (a ++ b) = false) : hasTripleNL b = false := by
  induction a with
  | nil => exact h
  | cons c cs ih =>
    apply ih
    rcases hx : hasTripleNL (cs ++ b) with _ | _
    · rfl
    · rw [List.cons_append, hasTripleNL_tail c (cs ++ b) hx] at h
      exact absurd h (by simp)

theorem hasTripleNL_append_left (a b : List Char)
    (h : hasTripleNL (a ++ b) = false) : hasTripleNL a = false := by
  induction a with
  | nil => rfl
  | cons c cs ih =>
    rcases cs with _ | ⟨d, ds⟩
    · rfl
    · rcases ds with _ | ⟨e, es⟩
      · rfl
      · rw [show hasTripleNL (c :: d :: e :: es) =
            ((c == '\n' && d == '\n' && e == '\n') || hasTripleNL (d :: e :: es)) from rfl]
        rw [show hasTripleNL ((c :: d :: e :: es) ++ b) =
            ((c == '\n' && d == '\n' && e == '\n') || hasTripleNL ((d :: e :: es) ++ b)) from rfl]
          at h
        rcases Bool.or_eq_false_iff.mp h with ⟨h1, h2⟩
        rw [h1, ih h2]
        rfl

/-- The output of the line-break collapsing `re.sub` never contains three
consecutive line breaks. -/
theorem hasTripleNL_subNl3 (s : List Char) : hasTripleNL (subNl3 s) = false := by
  induction s with
  | nil => rfl
  | cons c cs ih =>
    show hasTripleNL (if keepNL c (condFilter keepNL cs) then c :: condFilter keepNL cs
          else condFilter keepNL cs) = false
    by_cases hk : keepNL c (condFilter keepNL cs)
    · rw [if_pos hk]
      rw [keepNL] at hk
      have hkf : (c == '\n' && ((condFilter keepNL cs).take 2 == ['\n', '\n'])) = false := by
        rcases hb : (c == '\n' && ((condFilter keepNL cs).take 2 == ['\n', '\n'])) with _ | _
        · rfl
        · rw [hb] at hk
          exact absurd hk (by simp)
      rcases hacc : condFilter keepNL cs with _ | ⟨d, ds⟩
      · rfl
      · rcases ds with _ | ⟨e, es⟩
        · rfl
        · have ih2 : hasTripleNL (d :: e :: es) = false := by
            rw [← hacc]
            exact ih
          rw [show hasTripleNL (c :: d :: e :: es) =
              ((c == '\n' && d == '\n' && e == '\n') || hasTripleNL (d :: e :: es)) from rfl]
          have htake : ((d :: e :: es).take 2 == ['\n', '\n']) =
              (d == '\n' && (e == '\n' && true)) := rfl
          rw [hacc, htake] at hkf
          have hh : (c == '\n' && d == '\n' && e == '\n') = false := by
            rcases hc : (c == '\n') with _ | _
            · rw [Bool.false_and, Bool.false_and]
            · rw [Bool.true_and]
              simp only [hc, Bool.true_and, Bool.and_true] at hkf
              exact hkf
          rw [hh, ih2]
          rfl
    · rw [if_neg hk]
      exact ih

/-- The full normalization never outputs a run of blank lines longer than
one. -/
theorem hasTripleNL_specNormalize (s : List Char) :
    hasTripleNL (specNormalize s) = false := by
  unfold specNormalize pyStrip
  have h0 : hasTripleNL (subNl3 (subWsNl s)) = false := hasTripleNL_subNl3 _
  have h1 : hasTripleNL (stripR (subNl3 (subWsNl s))) = false := by
    apply hasTripleNL_append_left _ ((subNl3 (subWsNl s)).reverse.takeWhile pyIsSpace).reverse
    rw [← stripR_decomposition]
    exact h0
  show hasTripleNL (stripL (stripR (subNl3 (subWsNl s)))) = false
  unfold stripL
  apply hasTripleNL_append_right ((stripR (subNl3 (subWsNl s))).takeWhile pyIsSpace)
  rw [List.takeWhile_append_dropWhile]
  exact h1

/-! ## Lemmas: hex digests -/

/-- `c` is a lowercase hexadecimal digit. -/
def isHexLowerChar (c : Char) : Bool :=
  "0123456789abcdef".toList.contains c

theorem pyIsSpace_hexDigit (n : Nat) : pyIsSpace (hexDigit n) = false := by
  match n with
  | 0 => decide
  | 1 => decide
  | 2 => decide
  | 3 => decide
  | 4 => decide
  | 5 => decide
  | 6 => decide
  | 7 => decide
  | 8 => decide
  | 9 => decide
  | 10 => decide
  | 11 => decide
  | 12 => decide
  | 13 => decide
  | 14 => decide
  | (m + 15) => exact (by decide : pyIsSpace 'f' = false)

theorem isHexLowerChar_hexDigit (n : Nat) : isHexLowerChar (hexDigit n) = true := by
  match n with
  | 0 => decide
  | 1 => decide
  | 2 => decide
  | 3 => decide
  | 4 => decide
  | 5 => decide
  | 6 => decide
  | 7 => decide
  | 8 => decide
  | 9 => decide
  | 10 => decide
  | 11 => decide
  | 12 => decide
  | 13 => decide
  | 14 => decide
  | (m + 15) => exact (by decide : isHexLowerChar 'f' = true)

theorem mem_hexWord32 (c : Char) (w : Nat) (h : c ∈ hexWord32 w) :
    ∃ n, c = hexDigit n := by
  unfold hexWord32 at h
  simp only [List.mem_cons, List.not_mem_nil, or_false] at h
  rcases h with h | h | h | h | h | h | h | h <;> exact ⟨_, h⟩

theorem sha256_chars (s : List Char) : ∀ c ∈ sha256 s, ∃ n, c = hexDigit n := by
  intro c hc
  unfold sha256 sha256hexBytes at hc
  simp only [List.mem_append] at hc
  rcases hc with ((((((h | h) | h) | h) | h) | h) | h) | h <;>
    exact mem_hexWord32 c _ h

theorem dropWhile_no_sat (p : Char → Bool) (u : List Char)
    (h : ∀ c ∈ u, p c = false) : u.dropWhile p = u := by
  cases u with
  | nil => rfl
  | cons c cs =>
    rw [List.dropWhile_cons, if_neg (by rw [h c (List.mem_cons_self _ _)]; simp)]

theorem pyStrip_no_space (u : List Char)
    (h : ∀ c ∈ u, pyIsSpace c = false) : pyStrip u = u := by
  unfold pyStrip stripL stripR
  rw [dropWhile_no_sat pyIsSpace u.reverse fun c hc => h c (List.mem_reverse.mp hc),
    List.reverse_reverse, dropWhile_no_sat pyIsSpace u h]

/-- A hex digest survives the `strip()` in `read_text` unchanged. -/
theorem pyStrip_sha256 (s : List Char) : pyStrip (sha256 s) = sha256 s := by
  apply pyStrip_no_space
  intro c hc
  rcases sha256_chars s c hc with ⟨n, rfl⟩
  exact pyIsSpace_hexDigit n

/-- Every character of a digest is a lowercase hex digit. -/
theorem sha256_isHexLower (s : List Char) :
    ∀ c ∈ sha256 s, isHexLowerChar c = true := by
  intro c hc
  rcases sha256_chars s c hc with ⟨n, rfl⟩
  exact isHexLowerChar_hexDigit n

/-! ## Lemmas: extraction -/

/-- Full characterization of a successful extraction: with `i` the first
start-marker occurrence and `j` the first end-marker occurrence at or
after its end, the result is the normalized slice strictly between them. -/
theorem extract_eq_of_firstOcc (flat : List Char) (i j : Nat)
    (hi : matchesAt START_MARKER flat i = true)
    (himin : ∀ k, k < i → matchesAt START_MARKER flat k = false)
    (hj : matchesAt END_MARKER flat j = true)
    (hjge : i + START_MARKER.length ≤ j)
    (hjmin : ∀ k, k < j → i + START_MARKER.length ≤ k →
      matchesAt END_MARKER flat k = false) :
    extract_current_social_events flat =
      .ok (specNormalize (pySlice flat (i + START_MARKER.length) j)) := by
  have hS : findIdx START_MARKER flat = some i :=
    (findIdx_eq_some_iff _ _ _).mpr ⟨hi, himin⟩
  have hEex : findIdx END_MARKER flat ≠ none := by
    intro hnone
    have hall := (findIdx_eq_none_iff _ _).mp hnone
    have hjj := hall j
    rw [hj] at hjj
    exact absurd hjj (by simp)
  rcases hE : findIdx END_MARKER flat with _ | j0
  · exact absurd hE hEex
  · have hF : findFrom END_MARKER flat (i + START_MARKER.length) = some j :=
      (findFrom_eq_some_iff _ _ _ _).mpr
        ⟨hjge, hj, fun k hk hak => hjmin k hk hak⟩
    unfold extract_current_social_events
    rw [hS, hE]
    show (match findFrom END_MARKER flat (i + START_MARKER.length) with
          | none => Except.error ExtractError.endIndexNotFound
          | some e =>
            Except.ok (codeNormalize (pySlice flat (i + START_MARKER.length) e))) = _
    rw [hF]
    show Except.ok (codeNormalize (pySlice flat (i + START_MARKER.length) j)) = _
    rw [codeNormalize_eq_specNormalize]

theorem extract_error_of_start_absent (flat : List Char)
    (hS : findIdx START_MARKER flat = none) :
    extract_current_social_events flat = .error ExtractError.markerNotFound := by
  unfold extract_current_social_events
  rw [hS]

theorem extract_error_of_end_absent (flat : List Char)
    (hE : findIdx END_MARKER flat = none) :
    extract_current_social_events flat = .error ExtractError.markerNotFound := by
  unfold extract_current_social_events
  rw [hE]
  rcases findIdx START_MARKER flat with _ | i <;> rfl

theorem extract_error_of_end_before (flat : List Char) (i j0 : Nat)
    (hS : findIdx START_MARKER flat = some i)
    (hE : findIdx END_MARKER flat = some j0)
    (hF : findFrom END_MARKER flat (i + START_MARKER.length) = none) :
    extract_current_social_events flat = .error ExtractError.endIndexNotFound := by
  unfold extract_current_social_events
  rw [hS, hE]
  show (match findFrom END_MARKER flat (i + START_MARKER.length) with
        | none => Except.error ExtractError.endIndexNotFound
        | some e =>
          Except.ok (codeNormalize (pySlice flat (i + START_MARKER.length) e))) = _
  rw [hF]

/-! ## Lemmas: the run model -/

/-- `true` for the two state-file read events. -/
def isReadEvent : Event → Bool
  | .readFile _ => true
  | _ => false

/-- Shape of a successful run: the state directory afterwards holds the
digest and the block, and the trace is read, two writes, three outputs and
one print. -/
theorem program_ok_eq (flat block : List Char) (fs : FS)
    (hex : extract_current_social_events flat = .ok block) :
    program (.ok flat) fs =
      ⟨0,
       ⟨some (sha256 block), some block⟩,
       [Event.readFile FileId.hash,
        Event.writeFile FileId.hash (sha256 block),
        Event.writeFile FileId.text block,
        Event.ghOutput "changed".toList
          (if !(read_text fs.hashFile == some (sha256 block)) then "true".toList
           else "false".toList),
        Event.ghOutput "url".toList URL,
        Event.ghOutput "content".toList block,
        Event.printLine
          (if !(read_text fs.hashFile == some (sha256 block))
           then "CHANGED: Current social events updated.".toList
           else "No change.".toList)],
       some (!(read_text fs.hashFile == some (sha256 block)))⟩ := by
  simp only [program, mainResult, hex]
  rfl

/-- Shape of a failing run: exit code 1, the state directory untouched,
and a single `ERROR:` line printed. -/
theorem program_fail_eq (fetched : Except FetchErr (List Char)) (fs : FS)
    (h : runSucceeds fetched = false) :
    ∃ msg, program fetched fs =
      ⟨1, fs, [Event.printLine ("ERROR: ".toList ++ msg)], none⟩ := by
  rcases fetched with e | flat
  · exact ⟨fetchErrMsg e, rfl⟩
  · rcases hx : extract_current_social_events flat with e | block
    · refine ⟨extractErrMsg e, ?_⟩
      simp only [program, mainResult, hx]
    · exfalso
      simp only [runSucceeds, hx] at h
      exact absurd h (by simp)

theorem runSucceeds_ok (flat block : List Char)
    (hex : extract_current_social_events flat = .ok block) :
    runSucceeds (.ok flat) = true := by
  simp only [runSucceeds, hex]

instance exceptDecEq {ε α : Type} [DecidableEq ε] [DecidableEq α] :
    DecidableEq (Except ε α) := fun x y =>
  match x, y with
  | .ok a, .ok b =>
    if h : a = b then isTrue (by rw [h]) else isFalse (fun hc => h (by injection hc))
  | .error a, .error b =>
    if h : a = b then isTrue (by rw [h]) else isFalse (fun hc => h (by injection hc))
  | .ok _, .error _ => isFalse (fun hc => by injection hc)
  | .error _, .ok _ => isFalse (fun hc => by injection hc)

theorem extract_ok_shape (flat : List Char) (i j0 j : Nat)
    (hS : findIdx START_MARKER flat = some i)
    (hE : findIdx END_MARKER flat = some j0)
    (hF : findFrom END_MARKER flat (i + START_MARKER.length) = some j) :
    extract_current_social_events flat =
      .ok (codeNormalize (pySlice flat (i + START_MARKER.length) j)) := by
  unfold extract_current_social_events
  rw [hS, hE]
  show (match findFrom END_MARKER flat (i + START_MARKER.length) with
        | none => Except.error ExtractError.endIndexNotFound
        | some e =>
          Except.ok (codeNormalize (pySlice flat (i + START_MARKER.length) e))) = _
  rw [hF]

/-! ## Example inputs used by the witnesses -/

/-- A flattened text with both markers in order and a noisy middle. -/
def exFlatMid : List Char := "Current social eventsA \n\n\n\nBPast eventsZ".toList

/-- A flattened text where the two markers are adjacent. -/
def exFlatAdj : List Char := START_MARKER ++ END_MARKER

/-- A flattened text with a one-character region between the markers. -/
def exFlatOk : List Char := START_MARKER ++ "x".toList ++ END_MARKER

/-- A flattened text missing the end marker. -/
def exFlatNoEnd : List Char := START_MARKER ++ "only start".toList

/-! ## The claims -/

/-- C1: for every markup whose flattened text contains the start marker
and, after it, the end marker, extraction returns exactly the flattened
text strictly between the first start-marker occurrence and the first
end-marker occurrence after it, with trailing horizontal whitespace
before line breaks removed, runs of 3+ line breaks collapsed to exactly 2
and the result trimmed; consequently the result has no run of blank lines
longer than one. -/
theorem C1_extract_between_markers (flat : List Char) (i j : Nat)
    (hi : matchesAt START_MARKER flat i = true)
    (himin : ∀ k, k < i → matchesAt START_MARKER flat k = false)
    (hj : matchesAt END_MARKER flat j = true)
    (hjge : i + START_MARKER.length ≤ j)
    (hjmin : ∀ k, k < j → i + START_MARKER.length ≤ k →
      matchesAt END_MARKER flat k = false) :
    extract_current_social_events flat =
      .ok (specNormalize (pySlice flat (i + START_MARKER.length) j)) ∧
    hasTripleNL (specNormalize (pySlice flat (i + START_MARKER.length) j)) = false :=
  ⟨extract_eq_of_firstOcc flat i j hi himin hj hjge hjmin,
   hasTripleNL_specNormalize _⟩

theorem C1_extract_between_markers_witness :
    (matchesAt START_MARKER exFlatMid 0 = true) ∧
    (∀ k, k < 0 → matchesAt START_MARKER exFlatMid k = false) ∧
    (matchesAt END_MARKER exFlatMid 28 = true) ∧
    (0 + START_MARKER.length ≤ 28) ∧
    (∀ k, k < 28 → 0 + START_MARKER.length ≤ k →
      matchesAt END_MARKER exFlatMid k = false) ∧
    (extract_current_social_events exFlatMid =
      .ok (specNormalize (pySlice exFlatMid (0 + START_MARKER.length) 28)) ∧
     hasTripleNL (specNormalize (pySlice exFlatMid (0 + START_MARKER.length) 28)) = false) :=
  ⟨by decide, by decide, by decide, by decide, by decide,
   C1_extract_between_markers exFlatMid 0 28 (by decide) (by decide) (by decide)
     (by decide) (by decide)⟩

/-- C2 counterexample: with the two markers adjacent the region between
them is empty after trimming, yet extraction does NOT fail: it returns an
empty Extracted Block. -/
theorem C2_counterexample :
    pyStrip (pySlice exFlatAdj START_MARKER.length START_MARKER.length) = [] ∧
    extract_current_social_events exFlatAdj = .ok [] := by
  decide

/-- C2 (amended): when the extracted region between the two markers is
empty after trimming/normalization, extraction still succeeds, returning
an empty Extracted Block (the source has no non-emptiness check). -/
theorem C2_empty_region_ok (flat : List Char) (i j : Nat)
    (hi : matchesAt START_MARKER flat i = true)
    (himin : ∀ k, k < i → matchesAt START_MARKER flat k = false)
    (hj : matchesAt END_MARKER flat j = true)
    (hjge : i + START_MARKER.length ≤ j)
    (hjmin : ∀ k, k < j → i + START_MARKER.length ≤ k →
      matchesAt END_MARKER flat k = false)
    (hempty : specNormalize (pySlice flat (i + START_MARKER.length) j) = []) :
    extract_current_social_events flat = .ok [] := by
  rw [extract_eq_of_firstOcc flat i j hi himin hj hjge hjmin, hempty]

theorem C2_empty_region_ok_witness :
    (matchesAt START_MARKER exFlatAdj 0 = true) ∧
    (∀ k, k < 0 → matchesAt START_MARKER exFlatAdj k = false) ∧
    (matchesAt END_MARKER exFlatAdj 21 = true) ∧
    (0 + START_MARKER.length ≤ 21) ∧
    (∀ k, k < 21 → 0 + START_MARKER.length ≤ k →
      matchesAt END_MARKER exFlatAdj k = false) ∧
    (specNormalize (pySlice exFlatAdj (0 + START_MARKER.length) 21) = []) ∧
    extract_current_social_events exFlatAdj = .ok [] :=
  ⟨by decide, by decide, by decide, by decide, by decide, by decide,
   C2_empty_region_ok exFlatAdj 0 21 (by decide) (by decide) (by decide)
     (by decide) (by decide) (by decide)⟩

/-- C3 counterexample: a successful run (exit 0) that never reads the
text file — only the digest file is read — contradicting the claim that
both persisted files are read at the start of every run. -/
theorem C3_counterexample :
    (program (.ok exFlatOk) ⟨none, some "prior".toList⟩).exitCode = 0 ∧
    Event.readFile FileId.text ∉
      (program (.ok exFlatOk) ⟨none, some "prior".toList⟩).events ∧
    Event.readFile FileId.hash ∈
      (program (.ok exFlatOk) ⟨none, some "prior".toList⟩).events := by
  decide

/-- C3 (amended): at the start of every run that reaches the comparison
the program performs exactly one read of persisted state — the digest
file; the text file is never read on any run. -/
theorem C3_only_digest_read (fetched : Except FetchErr (List Char)) (fs : FS) :
    ((program fetched fs).events.filter isReadEvent =
      if runSucceeds fetched = true then [Event.readFile FileId.hash] else []) ∧
    Event.readFile FileId.text ∉ (program fetched fs).events := by
  rcases hs : runSucceeds fetched with _ | _
  · rcases program_fail_eq fetched fs hs with ⟨msg, hp⟩
    rw [hp]
    exact ⟨by simp [isReadEvent], by simp⟩
  · rcases fetched with e | flat
    · exact absurd hs (by simp [runSucceeds])
    · rcases hx : extract_current_social_events flat with e | block
      · exact absurd hs (by simp [runSucceeds, hx])
      · rw [program_ok_eq flat block fs hx]
        constructor
        · simp [List.filter, isReadEvent]
        · simp

theorem C3_only_digest_read_witness :
    ((program (.ok exFlatOk) ⟨some "h".toList, some "t".toList⟩).events.filter isReadEvent =
      if runSucceeds (.ok exFlatOk) = true then [Event.readFile FileId.hash] else []) ∧
    Event.readFile FileId.text ∉
      (program (.ok exFlatOk) ⟨some "h".toList, some "t".toList⟩).events :=
  C3_only_digest_read (.ok exFlatOk) ⟨some "h".toList, some "t".toList⟩

/-- C4: extraction fails (with the marker-failure taxonomy the spec calls
`MarkerNotFoundError`) in exactly three cases: the start marker is absent
from the flattened text, the end marker is absent, or the end marker has
no occurrence at or after the end of the first start-marker occurrence. -/
theorem C4_failure_cases (flat : List Char) :
    (extract_current_social_events flat).toOption = none ↔
      ((∀ k, matchesAt START_MARKER flat k = false) ∨
       (∀ k, matchesAt END_MARKER flat k = false) ∨
       (∃ i, (matchesAt START_MARKER flat i = true ∧
              ∀ k, k < i → matchesAt START_MARKER flat k = false) ∧
             ∀ k, i + START_MARKER.length ≤ k →
               matchesAt END_MARKER flat k = false)) := by
  constructor
  · intro hfail
    rcases hS : findIdx START_MARKER flat with _ | i
    · exact Or.inl ((findIdx_eq_none_iff _ _).mp hS)
    · rcases hE : findIdx END_MARKER flat with _ | j0
      · exact Or.inr (Or.inl ((findIdx_eq_none_iff _ _).mp hE))
      · rcases hF : findFrom END_MARKER flat (i + START_MARKER.length) with _ | j
        · rcases (findIdx_eq_some_iff _ _ _).mp hS with ⟨hi, himin⟩
          exact Or.inr (Or.inr ⟨i, ⟨hi, himin⟩, (findFrom_eq_none_iff _ _ _).mp hF⟩)
        · rw [extract_ok_shape flat i j0 j hS hE hF] at hfail
          exact Option.noConfusion hfail
  · intro hdisj
    rcases hdisj with hall | hall | ⟨i, ⟨hi, himin⟩, hnone⟩
    · rw [extract_error_of_start_absent flat ((findIdx_eq_none_iff _ _).mpr hall)]
      rfl
    · rw [extract_error_of_end_absent flat ((findIdx_eq_none_iff _ _).mpr hall)]
      rfl
    · have hS : findIdx START_MARKER flat = some i :=
        (findIdx_eq_some_iff _ _ _).mpr ⟨hi, himin⟩
      rcases hE : findIdx END_MARKER flat with _ | j0
      · rw [extract_error_of_end_absent flat hE]
        rfl
      · rw [extract_error_of_end_before flat i j0 hS hE
          ((findFrom_eq_none_iff _ _ _).mpr hnone)]
        rfl

theorem C4_failure_cases_witness :
    ((extract_current_social_events exFlatNoEnd).toOption = none ↔
      ((∀ k, matchesAt START_MARKER exFlatNoEnd k = false) ∨
       (∀ k, matchesAt END_MARKER exFlatNoEnd k = false) ∨
       (∃ i, (matchesAt START_MARKER exFlatNoEnd i = true ∧
              ∀ k, k < i → matchesAt START_MARKER exFlatNoEnd k = false) ∧
             ∀ k, i + START_MARKER.length ≤ k →
               matchesAt END_MARKER exFlatNoEnd k = false))) :=
  C4_failure_cases exFlatNoEnd

/-- C5: on a run with no prior state (the digest file is absent, reading
it yields `None`), the computed `changed` flag is `true`, for every
extracted block. -/
theorem C5_first_run_changed (flat block : List Char) (fs : FS)
    (hnone : fs.hashFile = none)
    (hex : extract_current_social_events flat = .ok block) :
    (program (.ok flat) fs).changedFlag = some true := by
  rw [program_ok_eq flat block fs hex]
  show some (!(read_text fs.hashFile == some (sha256 block))) = some true
  rw [hnone]
  rfl

/-- Empty prior state: no digest file, no text file. -/
def fs0c5 : FS := ⟨none, none⟩

theorem C5_first_run_changed_witness :
    fs0c5.hashFile = none ∧
    extract_current_social_events exFlatOk = .ok "x".toList ∧
    (program (.ok exFlatOk) fs0c5).changedFlag = some true :=
  ⟨rfl, by decide, C5_first_run_changed exFlatOk "x".toList fs0c5 rfl (by decide)⟩

/-- C6: at the end of every successful run — whatever the value of
`changed` — both state files are overwritten: the digest file with the
lowercase hex SHA-256 digest of the UTF-8 encoding of the current block,
the text file with the block verbatim. -/
theorem C6_state_overwritten (flat block : List Char) (fs : FS)
    (hex : extract_current_social_events flat = .ok block) :
    (program (.ok flat) fs).fs.hashFile = some (sha256 block) ∧
    (program (.ok flat) fs).fs.textFile = some block ∧
    (∀ c ∈ sha256 block, isHexLowerChar c = true) := by
  rw [program_ok_eq flat block fs hex]
  exact ⟨rfl, rfl, sha256_isHexLower block⟩

theorem C6_state_overwritten_witness :
    extract_current_social_events exFlatOk = .ok "x".toList ∧
    ((program (.ok exFlatOk) fs0c5).fs.hashFile = some (sha256 "x".toList) ∧
     (program (.ok exFlatOk) fs0c5).fs.textFile = some "x".toList ∧
     (∀ c ∈ sha256 "x".toList, isHexLowerChar c = true)) :=
  ⟨by decide, C6_state_overwritten exFlatOk "x".toList fs0c5 (by decide)⟩

/-- C7: when the newly extracted block is byte-identical to the block of
the previous successful run (so the persisted digest equals the new
digest), `changed` is `false` and both persisted files hold exactly their
prior content after the run. -/
theorem C7_unchanged_run (flat block : List Char) (fs : FS)
    (hex : extract_current_social_events flat = .ok block)
    (hhash : fs.hashFile = some (sha256 block))
    (htext : fs.textFile = some block) :
    (program (.ok flat) fs).changedFlag = some false ∧
    (program (.ok flat) fs).fs = fs := by
  rw [program_ok_eq flat block fs hex]
  have hchanged : (!(read_text fs.hashFile == some (sha256 block))) = false := by
    rw [hhash]
    show (!(some (pyStrip (sha256 block)) == some (sha256 block))) = false
    rw [pyStrip_sha256]
    simp
  constructor
  · show some (!(read_text fs.hashFile == some (sha256 block))) = some false
    rw [hchanged]
  · show FS.mk (some (sha256 block)) (some block) = fs
    rcases fs with ⟨hf, tf⟩
    simp only at hhash htext
    rw [show hf = some (sha256 block) from hhash, show tf = some block from htext]

/-- Prior state as left by a previous successful run extracting `"x"`. -/
def fsPrevX : FS := ⟨some (sha256 "x".toList), some "x".toList⟩

theorem C7_unchanged_run_witness :
    extract_current_social_events exFlatOk = .ok "x".toList ∧
    fsPrevX.hashFile = some (sha256 "x".toList) ∧
    fsPrevX.textFile = some "x".toList ∧
    ((program (.ok exFlatOk) fsPrevX).changedFlag = some false ∧
     (program (.ok exFlatOk) fsPrevX).fs = fsPrevX) :=
  ⟨by decide, rfl, rfl,
   C7_unchanged_run exFlatOk "x".toList fsPrevX (by decide) rfl rfl⟩

/-- C8: a run failing before the write stage (fetch failure or a marker
failure, e.g. missing end marker) exits with code 1 and leaves both
persisted state files exactly as they were; no write event occurs at
all. -/
theorem C8_fail_preserves_state (fetched : Except FetchErr (List Char)) (fs : FS)
    (hfail : runSucceeds fetched = false) :
    (program fetched fs).exitCode = 1 ∧
    (program fetched fs).fs = fs ∧
    ∀ f c, Event.writeFile f c ∉ (program fetched fs).events := by
  rcases program_fail_eq fetched fs hfail with ⟨msg, hp⟩
  rw [hp]
  refine ⟨rfl, rfl, ?_⟩
  intro f c hmem
  simp at hmem

theorem C8_fail_preserves_state_witness :
    runSucceeds (.ok exFlatNoEnd) = false ∧
    ((program (.ok exFlatNoEnd) fsPrevX).exitCode = 1 ∧
     (program (.ok exFlatNoEnd) fsPrevX).fs = fsPrevX ∧
     ∀ f c, Event.writeFile f c ∉ (program (.ok exFlatNoEnd) fsPrevX).events) :=
  ⟨by decide, C8_fail_preserves_state (.ok exFlatNoEnd) fsPrevX (by decide)⟩

/-- C9: the exit code is 0 exactly when the run completes successfully
(whether or not content changed), 1 on any modelled failure (fetch
failure or marker failure), and on failure the reason is printed to
standard output as the final line before exiting. -/
theorem C9_exit_codes (fetched : Except FetchErr (List Char)) (fs : FS) :
    ((program fetched fs).exitCode = if runSucceeds fetched = true then 0 else 1) ∧
    (runSucceeds fetched = false →
      ∃ msg, (program fetched fs).events.getLast? =
        some (Event.printLine ("ERROR: ".toList ++ msg))) := by
  rcases hs : runSucceeds fetched with _ | _
  · rcases program_fail_eq fetched fs hs with ⟨msg, hp⟩
    rw [hp]
    exact ⟨by simp, fun _ => ⟨msg, by simp⟩⟩
  · rcases fetched with e | flat
    · exact absurd hs (by simp [runSucceeds])
    · rcases hx : extract_current_social_events flat with e | block
      · exact absurd hs (by simp [runSucceeds, hx])
      · rw [program_ok_eq flat block fs hx]
        refine ⟨by simp, fun hcontra => ?_⟩
        exact absurd hcontra (by simp)

theorem C9_exit_codes_witness :
    (((program (.ok exFlatNoEnd) fs0c5).exitCode =
        if runSucceeds (.ok exFlatNoEnd) = true then 0 else 1) ∧
     (runSucceeds (.ok exFlatNoEnd) = false →
       ∃ msg, (program (.ok exFlatNoEnd) fs0c5).events.getLast? =
         some (Event.printLine ("ERROR: ".toList ++ msg)))) :=
  C9_exit_codes (.ok exFlatNoEnd) fs0c5

/-- `true` for the three GitHub-output emission events. -/
def isGhOutputEvent : Event → Bool
  | .ghOutput _ _ => true
  | _ => false

/-- C10: the `changed` flag and the emitted outputs depend only on the
fetched markup and the digest file — never on the text file: two runs on
identical fetched input and identical digest-file state but arbitrary
text-file contents produce the same `changed` flag and the same emitted
`changed`/`url`/`content` outputs. -/
theorem C10_text_file_noninterference (fetched : Except FetchErr (List Char))
    (fs1 fs2 : FS) (hh : fs1.hashFile = fs2.hashFile) :
    (program fetched fs1).changedFlag = (program fetched fs2).changedFlag ∧
    (program fetched fs1).events.filter isGhOutputEvent =
      (program fetched fs2).events.filter isGhOutputEvent := by
  rcases fetched with e | flat
  · exact ⟨rfl, rfl⟩
  · rcases hx : extract_current_social_events flat with e | block
    · refine ⟨?_, ?_⟩ <;> simp only [program, mainResult, hx]
    · rw [program_ok_eq flat block fs1 hx, program_ok_eq flat block fs2 hx, hh]
      exact ⟨rfl, rfl⟩

/-- Two prior states sharing the digest file but with different text
files. -/
def fsAltText : FS := ⟨some (sha256 "x".toList), some "completely different".toList⟩

theorem C10_text_file_noninterference_witness :
    fsPrevX.hashFile = fsAltText.hashFile ∧
    ((program (.ok exFlatOk) fsPrevX).changedFlag =
      (program (.ok exFlatOk) fsAltText).changedFlag ∧
     (program (.ok exFlatOk) fsPrevX).events.filter isGhOutputEvent =
      (program (.ok exFlatOk) fsAltText).events.filter isGhOutputEvent) :=
  ⟨rfl, C10_text_file_noninterference (.ok exFlatOk) fsPrevX fsAltText rfl⟩
